import Mathlib

/-!
A verification development for the KPI triage and domain fan-out
orchestration engine of the dairy-farm analysis repository.

Each definition is a shallow embedding of a function from the Python
sources (`agents/helpers.py`, `agents/domain_config.py`,
`agents/pre_analyzer_agent.py`, `agents/agents_graph.py`, and the five
per-domain agent modules).  Strings are `String` or `List Char`, Python
floats are `ℚ`, Python dicts are ordered association lists, and every
external collaborator (the HTTP data service, the language model) is an
explicit function parameter.  The theorems at the end settle the claims
C1 through C10.
-/

namespace FarmKpi

/-! ### Slugify: `_slugify` in `agents/helpers.py` -/

/-- Python `str.replace(pat, rep)` specialised to a single-character
pattern: every occurrence of the character `pat` is replaced by the
string `rep`. -/
def pyReplace (pat : Char) (rep : List Char) : List Char → List Char
  | [] => []
  | c :: rest => (if c = pat then rep else [c]) ++ pyReplace pat rep rest

/-- The eleven `(pattern, replacement)` pairs of the `.replace` chain in
`_slugify`, in source order. -/
def slugSubs : List (Char × List Char) :=
  [('%', ['p', 'c', 't']), ('<', ['l', 't']), ('>', ['g', 't']),
   ('+', ['p', 'l', 'u', 's']), ('(', []), (')', []), ('.', []), (',', []),
   ('/', ['_']), (' ', ['_']), ('-', ['_'])]

/-- The source characters consumed by the replacement chain. -/
def patKeys : List Char := slugSubs.map Prod.fst

/-- The whole `.replace` chain of `_slugify`, applied in source order. -/
def replaceSymbols (s : List Char) : List Char :=
  slugSubs.foldl (fun acc pr => pyReplace pr.1 pr.2 acc) s

/-- One pass of Python `str.replace` with the two-character pattern
`"__"` and replacement `"_"`: scan left to right, replacing
non-overlapping occurrences. -/
def replaceDoubleUS : List Char → List Char
  | [] => []
  | [c] => [c]
  | a :: b :: rest =>
    if a = '_' ∧ b = '_' then '_' :: replaceDoubleUS rest
    else a :: replaceDoubleUS (b :: rest)

/-- Python `"__" in alias`: the string contains two adjacent
underscores. -/
def hasDoubleUS : List Char → Bool
  | [] => false
  | [_] => false
  | a :: b :: rest => (a == '_' && b == '_') || hasDoubleUS (b :: rest)

theorem replaceDoubleUS_length_le :
    ∀ s : List Char, (replaceDoubleUS s).length ≤ s.length
  | [] => by simp [replaceDoubleUS]
  | [c] => by simp [replaceDoubleUS]
  | a :: b :: rest => by
    rw [replaceDoubleUS]
    split
    · have := replaceDoubleUS_length_le rest
      simp only [List.length_cons]
      omega
    · have := replaceDoubleUS_length_le (b :: rest)
      simp only [List.length_cons] at this ⊢
      omega

theorem replaceDoubleUS_length_lt :
    ∀ s : List Char, hasDoubleUS s = true → (replaceDoubleUS s).length < s.length
  | [], h => by simp [hasDoubleUS] at h
  | [c], h => by simp [hasDoubleUS] at h
  | a :: b :: rest, h => by
    rw [replaceDoubleUS]
    split
    · have := replaceDoubleUS_length_le rest
      simp only [List.length_cons]
      omega
    · rename_i hcond
      rw [hasDoubleUS, Bool.or_eq_true, Bool.and_eq_true, beq_iff_eq, beq_iff_eq] at h
      have hb : hasDoubleUS (b :: rest) = true := by tauto
      have := replaceDoubleUS_length_lt (b :: rest) hb
      simp only [List.length_cons] at this ⊢
      omega

/-- The body of the `while "__" in alias` loop of `_slugify`, bounded by
a fuel count (the loop strictly shrinks the string, so any fuel at least
the string's length reaches the fixpoint). -/
def collapseUSFuel : ℕ → List Char → List Char
  | 0, s => s
  | fuel + 1, s =>
    if hasDoubleUS s = true then collapseUSFuel fuel (replaceDoubleUS s)
    else s

/-- The `while "__" in alias` loop of `_slugify`. -/
def collapseUS (s : List Char) : List Char := collapseUSFuel s.length s

theorem collapseUSFuel_no_dus :
    ∀ (fuel : ℕ) (s : List Char), s.length ≤ fuel →
      hasDoubleUS (collapseUSFuel fuel s) = false
  | 0, s, h => by
    have hs : s = [] := List.length_eq_zero.mp (Nat.le_zero.mp h)
    subst hs
    rfl
  | fuel + 1, s, h => by
    rw [collapseUSFuel]
    split
    · rename_i hd
      refine collapseUSFuel_no_dus fuel _ ?_
      have := replaceDoubleUS_length_lt s hd
      omega
    · rename_i hd
      exact eq_false_of_ne_true hd

theorem collapseUS_no_dus (s : List Char) : hasDoubleUS (collapseUS s) = false :=
  collapseUSFuel_no_dus s.length s (le_refl _)

theorem collapseUS_eq_self {s : List Char} (h : hasDoubleUS s = false) :
    collapseUS s = s := by
  rw [collapseUS]
  cases hn : s.length with
  | zero => rfl
  | succ n => rw [collapseUSFuel, if_neg (by simp [h])]

/-- Python `alias.strip("_")`: drop underscores from both ends. -/
def stripUS (s : List Char) : List Char :=
  List.rdropWhile (· == '_') (List.dropWhile (· == '_') s)

/-- The part of `_slugify` below the Unicode normalisation: the
replacement chain, the underscore-collapsing loop, and the final
`strip("_")`. -/
def slugifyCore (s : List Char) : List Char :=
  stripUS (collapseUS (replaceSymbols s))

/-- The `_slugify` function of `agents/helpers.py`.  Its first two lines
(`unicodedata.normalize("NFKD", value)` plus the removal of combining
marks) and `str.lower` read the Unicode character database, which is
external to the source; their composition is the parameter `norm`.  The
rest of the function is embedded concretely. -/
def slugify (norm : List Char → List Char) (s : List Char) : List Char :=
  slugifyCore (norm s)

theorem mem_pyReplace {c pat : Char} {rep : List Char} :
    ∀ s : List Char, c ∈ pyReplace pat rep s → c ∈ rep ∨ c ∈ s := by
  intro s
  induction s with
  | nil => simp [pyReplace]
  | cons a rest ih =>
    intro h
    rw [pyReplace, List.mem_append] at h
    rcases h with h | h
    · split at h
      · exact Or.inl h
      · simp only [List.mem_singleton] at h
        rw [h]
        exact Or.inr (List.mem_cons_self a rest)
    · rcases ih h with h' | h'
      · exact Or.inl h'
      · exact Or.inr (List.mem_cons_of_mem a h')

theorem pat_not_mem_pyReplace {pat : Char} {rep : List Char} (hrep : pat ∉ rep) :
    ∀ s : List Char, pat ∉ pyReplace pat rep s := by
  intro s
  induction s with
  | nil => simp [pyReplace]
  | cons a rest ih =>
    rw [pyReplace, List.mem_append]
    rintro (h | h)
    · split at h
      · exact hrep h
      · simp only [List.mem_singleton] at h
        rename_i hne
        exact hne h.symm
    · exact ih h

theorem pyReplace_eq_self {pat : Char} {rep : List Char} :
    ∀ s : List Char, pat ∉ s → pyReplace pat rep s = s := by
  intro s
  induction s with
  | nil => intro; rfl
  | cons a rest ih =>
    intro h
    rw [pyReplace,
      if_neg (fun hc => h (by rw [← hc]; exact List.mem_cons_self a rest)),
      List.singleton_append, ih (fun hc => h (List.mem_cons_of_mem a hc))]

theorem foldl_pyReplace_not_mem {c : Char} :
    ∀ (L : List (Char × List Char)) (acc : List Char),
      (∀ pr ∈ L, c ∉ pr.2) → c ∉ acc →
      c ∉ L.foldl (fun acc pr => pyReplace pr.1 pr.2 acc) acc := by
  intro L
  induction L with
  | nil => intro acc _ hacc; exact hacc
  | cons pr L ih =>
    intro acc hL hacc
    rw [List.foldl_cons]
    refine ih _ (fun q hq => hL q (List.mem_cons_of_mem pr hq)) ?_
    intro hc
    rcases mem_pyReplace _ hc with h | h
    · exact hL pr (List.mem_cons_self pr L) h
    · exact hacc h

theorem foldl_pyReplace_killed {c : Char} :
    ∀ (L : List (Char × List Char)) (acc : List Char),
      (∀ pr ∈ L, c ∉ pr.2) → c ∈ L.map Prod.fst →
      c ∉ L.foldl (fun acc pr => pyReplace pr.1 pr.2 acc) acc := by
  intro L
  induction L with
  | nil => intro acc _ hmem; simp at hmem
  | cons pr L ih =>
    intro acc hL hmem
    rw [List.foldl_cons]
    rw [List.map_cons] at hmem
    rcases List.mem_cons.mp hmem with heq | hmem'
    · have hrep : c ∉ pr.2 := hL pr (List.mem_cons_self pr L)
      refine foldl_pyReplace_not_mem L _ (fun q hq => hL q (List.mem_cons_of_mem pr hq)) ?_
      rw [heq] at hrep ⊢
      exact pat_not_mem_pyReplace hrep acc
    · exact ih _ (fun q hq => hL q (List.mem_cons_of_mem pr hq)) hmem'

theorem foldl_pyReplace_eq_self :
    ∀ (L : List (Char × List Char)) (acc : List Char),
      (∀ pr ∈ L, pr.1 ∉ acc) →
      L.foldl (fun acc pr => pyReplace pr.1 pr.2 acc) acc = acc := by
  intro L
  induction L with
  | nil => intro acc _; rfl
  | cons pr L ih =>
    intro acc h
    rw [List.foldl_cons, pyReplace_eq_self acc (h pr (List.mem_cons_self pr L))]
    exact ih acc (fun q hq => h q (List.mem_cons_of_mem pr hq))

theorem replaceSymbols_not_mem {c : Char} (hc : c ∈ patKeys) (s : List Char) :
    c ∉ replaceSymbols s := by
  have h1 : ∀ c ∈ patKeys, ∀ pr ∈ slugSubs, c ∉ pr.2 := by decide
  exact foldl_pyReplace_killed slugSubs s (h1 c hc) hc

theorem replaceSymbols_eq_self {s : List Char} (h : ∀ c ∈ patKeys, c ∉ s) :
    replaceSymbols s = s := by
  refine foldl_pyReplace_eq_self slugSubs s (fun pr hpr => h pr.1 ?_)
  exact List.mem_map.mpr ⟨pr, hpr, rfl⟩

theorem mem_replaceDoubleUS :
    ∀ (s : List Char) (c : Char), c ∈ replaceDoubleUS s → c ∈ s
  | [], c, h => by simp [replaceDoubleUS] at h
  | [a], c, h => by simpa [replaceDoubleUS] using h
  | a :: b :: rest, c, h => by
    rw [replaceDoubleUS] at h
    split at h
    · rename_i hcond
      rcases List.mem_cons.mp h with h' | h'
      · rw [h', ← hcond.1]
        exact List.mem_cons_self a (b :: rest)
      · exact List.mem_cons_of_mem a (List.mem_cons_of_mem b (mem_replaceDoubleUS rest c h'))
    · rcases List.mem_cons.mp h with h' | h'
      · exact h' ▸ List.mem_cons_self a (b :: rest)
      · exact List.mem_cons_of_mem a (mem_replaceDoubleUS (b :: rest) c h')

theorem mem_collapseUSFuel :
    ∀ (fuel : ℕ) (s : List Char) (c : Char), c ∈ collapseUSFuel fuel s → c ∈ s
  | 0, _, _, h => h
  | fuel + 1, s, c, h => by
    rw [collapseUSFuel] at h
    split at h
    · exact mem_replaceDoubleUS s c (mem_collapseUSFuel fuel _ c h)
    · exact h

theorem mem_collapseUS (s : List Char) (c : Char) (h : c ∈ collapseUS s) : c ∈ s :=
  mem_collapseUSFuel s.length s c h

theorem stripUS_sublist (s : List Char) : (stripUS s).Sublist s :=
  ((List.rdropWhile_prefix _ _).sublist).trans (List.dropWhile_suffix _).sublist

theorem mem_stripUS {s : List Char} {c : Char} (h : c ∈ stripUS s) : c ∈ s :=
  (stripUS_sublist s).mem h

theorem stripUS_within (s : List Char) : (stripUS s).IsInfix s :=
  (List.rdropWhile_prefix _ _).isInfix.trans (List.dropWhile_suffix _).isInfix

theorem hasDoubleUS_iff_sub :
    ∀ s : List Char, hasDoubleUS s = true ↔ ['_', '_'].IsInfix s
  | [] => by
    constructor
    · intro h; exact absurd h (by decide)
    · intro h; have := h.length_le; simp at this
  | [a] => by
    constructor
    · intro h; exact absurd h (by simp [hasDoubleUS])
    · intro h; have := h.length_le; simp at this
  | a :: b :: rest => by
    rw [hasDoubleUS, Bool.or_eq_true, Bool.and_eq_true, beq_iff_eq, beq_iff_eq,
      hasDoubleUS_iff_sub (b :: rest)]
    constructor
    · rintro (⟨ha, hb⟩ | h)
      · subst ha
        subst hb
        exact ⟨[], rest, rfl⟩
      · rcases h with ⟨u, v, huv⟩
        exact ⟨a :: u, v, by rw [← huv]; rfl⟩
    · intro h
      rcases List.infix_cons_iff.mp h with hpre | hinf
      · rcases hpre with ⟨t, ht⟩
        simp only [List.cons_append, List.nil_append, List.cons.injEq] at ht
        exact Or.inl ⟨ht.1.symm, ht.2.1.symm⟩
      · exact Or.inr hinf

theorem hasDoubleUS_stripUS {s : List Char} (h : hasDoubleUS s = false) :
    hasDoubleUS (stripUS s) = false := by
  cases h2 : hasDoubleUS (stripUS s)
  · rfl
  · exfalso
    have h3 := (hasDoubleUS_iff_sub (stripUS s)).mp h2
    have h4 := (hasDoubleUS_iff_sub s).mpr (h3.trans (stripUS_within s))
    rw [h] at h4
    exact Bool.false_ne_true h4

theorem dropWhile_prefix_eq {α : Type} {p : α → Bool} {u t : List α}
    (hpre : u.IsPrefix t) (hdt : List.dropWhile p t = t) :
    List.dropWhile p u = u := by
  rcases u with _ | ⟨c, u'⟩
  · rfl
  · rcases hpre with ⟨r, hr⟩
    have hc : p c = false := by
      cases hcc : p c
      · rfl
      · exfalso
        rw [← hr, List.cons_append, List.dropWhile_cons, if_pos hcc] at hdt
        have h1 : (List.dropWhile p (u' ++ r)).length ≤ (u' ++ r).length :=
          (List.dropWhile_suffix p).sublist.length_le
        rw [hdt] at h1
        simp [List.length_append] at h1
    rw [List.dropWhile_cons, if_neg (by simp [hc])]

theorem stripUS_idem (s : List Char) : stripUS (stripUS s) = stripUS s := by
  unfold stripUS
  have hu : List.dropWhile (· == '_')
        (List.rdropWhile (· == '_') (List.dropWhile (· == '_') s)) =
      List.rdropWhile (· == '_') (List.dropWhile (· == '_') s) :=
    dropWhile_prefix_eq (List.rdropWhile_prefix _ _) (List.dropWhile_idempotent _ _)
  rw [hu, List.rdropWhile_idempotent]

theorem slugifyCore_good (s : List Char) : ∀ c ∈ patKeys, c ∉ slugifyCore s := by
  intro c hc hmem
  exact replaceSymbols_not_mem hc s
    (mem_collapseUS _ c (mem_stripUS hmem))

theorem slugifyCore_idem (s : List Char) :
    slugifyCore (slugifyCore s) = slugifyCore s := by
  have h1 : replaceSymbols (slugifyCore s) = slugifyCore s :=
    replaceSymbols_eq_self (fun c hc hmem => slugifyCore_good s c hc hmem)
  have h2 : hasDoubleUS (slugifyCore s) = false :=
    hasDoubleUS_stripUS (collapseUS_no_dus (replaceSymbols s))
  rw [slugifyCore, h1, collapseUS_eq_self h2, slugifyCore]
  exact stripUS_idem _

/-! ### Domain configuration: `agents/domain_config.py`

The JSON file `data/domain_kpis.json` read by `_load_domain_config` is
data, not source code, so the loaded configuration is an explicit
parameter, as is the module's own `_slugify` (a plain `String → String`
function; claims C1, C2, C6 and C10 do not depend on its definition). -/

/-- Python dict lookup on an ordered association list. -/
def lookupDict {β : Type} (d : List (String × β)) (k : String) : Option β :=
  (d.find? (fun kv => kv.1 == k)).map (·.2)

/-- One entry of a section's `kpis` array in `domain_kpis.json`, with
the three fields `get_domain_kpi_aliases` probes.  A missing field is
`none`. -/
structure ConfigKpi where
  aliasVal : Option String
  nameVal : Option String
  codeVal : Option String
deriving DecidableEq

/-- One section of `domain_kpis.json` after the `_load_domain_config`
normalisation (`description` defaulted to the section name, `kpis`
defaulted to `[]`). -/
structure ConfigEntry where
  description : String
  kpis : List ConfigKpi
deriving DecidableEq

/-- The loaded configuration: an ordered mapping from section name to
entry. -/
abbrev DomainConfig := List (String × ConfigEntry)

/-- The alias chosen for one config item:
`item.get("alias") or _slugify(item.get("name", "") or item.get("code", ""))`
(Python truthiness: a missing field and an empty string both fall
through). -/
def configAlias (slug : String → String) (item : ConfigKpi) : String :=
  let nameOrCode :=
    if item.nameVal.getD "" ≠ "" then item.nameVal.getD ""
    else item.codeVal.getD ""
  if item.aliasVal.getD "" ≠ "" then item.aliasVal.getD ""
  else slug nameOrCode

/-- The accumulation loop shared by `get_domain_kpi_aliases` and
`build_domain_kpi_list`: append each alias of the bucket that is truthy
and not yet present. -/
def mergeKpiBucket (merged : List String) (bucket : List String) : List String :=
  bucket.foldl (fun m a => if a ≠ "" ∧ a ∉ m then m ++ [a] else m) merged

/-- `get_domain_kpi_aliases` of `agents/domain_config.py`: look the
domain up by exact key, else by slugified key or description (first
match wins), and deduplicate the entry's aliases in order. -/
def get_domain_kpi_aliases (slug : String → String) (config : DomainConfig)
    (domain : String) : List String :=
  if config = [] then []
  else
    match lookupDict config domain with
    | some entry => mergeKpiBucket [] (entry.kpis.map (configAlias slug))
    | none =>
      match config.find?
          (fun kv => slug kv.1 == slug domain || slug kv.2.description == slug domain) with
      | some kv => mergeKpiBucket [] (kv.2.kpis.map (configAlias slug))
      | none => []

/-- `build_domain_kpi_list` of `agents/domain_config.py`: merge the
prioritized KPIs with the domain defaults, preserving order
(`prioritized or []` handles Python `None` and the empty list alike). -/
def build_domain_kpi_list (slug : String → String) (config : DomainConfig)
    (domain : String) (prioritized : Option (List String)) : List String :=
  mergeKpiBucket (mergeKpiBucket [] (prioritized.getD []))
    (get_domain_kpi_aliases slug config domain)

theorem mergeKpiBucket_of_fresh :
    ∀ (bucket m : List String), bucket.Nodup → (∀ a ∈ bucket, a ≠ "") →
      (∀ a ∈ bucket, a ∉ m) → mergeKpiBucket m bucket = m ++ bucket := by
  intro bucket
  induction bucket with
  | nil => intro m _ _ _; simp [mergeKpiBucket]
  | cons b bs ih =>
    intro m hnd hne hfresh
    rw [mergeKpiBucket, List.foldl_cons,
      if_pos ⟨hne b (List.mem_cons_self b bs), hfresh b (List.mem_cons_self b bs)⟩]
    have hbs : mergeKpiBucket (m ++ [b]) bs = (m ++ [b]) ++ bs := by
      refine ih (m ++ [b]) (List.nodup_cons.mp hnd).2
        (fun a ha => hne a (List.mem_cons_of_mem b ha)) ?_
      intro a ha hmem
      rcases List.mem_append.mp hmem with h | h
      · exact hfresh a (List.mem_cons_of_mem b ha) h
      · simp only [List.mem_singleton] at h
        exact (List.nodup_cons.mp hnd).1 (h ▸ ha)
    rw [mergeKpiBucket] at hbs
    rw [hbs, List.append_assoc, List.singleton_append]

theorem mergeKpiBucket_filter :
    ∀ (bucket m : List String), bucket.Nodup → (∀ a ∈ bucket, a ≠ "") →
      mergeKpiBucket m bucket = m ++ bucket.filter (fun a => decide (a ∉ m)) := by
  intro bucket
  induction bucket with
  | nil => intro m _ _; simp [mergeKpiBucket]
  | cons b bs ih =>
    intro m hnd hne
    by_cases hbm : b ∈ m
    · rw [mergeKpiBucket, List.foldl_cons, if_neg (by tauto)]
      have := ih m (List.nodup_cons.mp hnd).2
        (fun a ha => hne a (List.mem_cons_of_mem b ha))
      rw [mergeKpiBucket] at this
      rw [this, List.filter_cons, if_neg (by simp [hbm])]
    · rw [mergeKpiBucket, List.foldl_cons,
        if_pos ⟨hne b (List.mem_cons_self b bs), hbm⟩]
      have hstep := ih (m ++ [b]) (List.nodup_cons.mp hnd).2
        (fun a ha => hne a (List.mem_cons_of_mem b ha))
      rw [mergeKpiBucket] at hstep
      rw [hstep, List.filter_cons, if_pos (by simp [hbm])]
      rw [List.append_assoc, List.singleton_append]
      congr 2
      refine List.filter_congr ?_
      intro a ha
      have hab : a ≠ b := fun he => (List.nodup_cons.mp hnd).1 (he ▸ ha)
      simp [List.mem_append, hab]

theorem mergeKpiBucket_nodup :
    ∀ (bucket m : List String), m.Nodup → (mergeKpiBucket m bucket).Nodup := by
  intro bucket
  induction bucket with
  | nil => intro m hm; exact hm
  | cons b bs ih =>
    intro m hm
    rw [mergeKpiBucket, List.foldl_cons]
    split
    · rename_i hcond
      refine ih (m ++ [b]) ?_
      simpa [List.nodup_append] using ⟨hm, hcond.2⟩
    · exact ih m hm

theorem mergeKpiBucket_ne_empty :
    ∀ (bucket m : List String), (∀ a ∈ m, a ≠ "") →
      ∀ a ∈ mergeKpiBucket m bucket, a ≠ "" := by
  intro bucket
  induction bucket with
  | nil => intro m hm; exact hm
  | cons b bs ih =>
    intro m hm
    rw [mergeKpiBucket, List.foldl_cons]
    split
    · rename_i hcond
      refine ih (m ++ [b]) ?_
      intro a ha
      rcases List.mem_append.mp ha with h | h
      · exact hm a h
      · simp only [List.mem_singleton] at h
        exact h ▸ hcond.1
    · exact ih m hm

theorem get_domain_kpi_aliases_nodup (slug : String → String)
    (config : DomainConfig) (domain : String) :
    (get_domain_kpi_aliases slug config domain).Nodup := by
  rw [get_domain_kpi_aliases]
  split
  · exact List.nodup_nil
  · split
    · exact mergeKpiBucket_nodup _ [] List.nodup_nil
    · split
      · exact mergeKpiBucket_nodup _ [] List.nodup_nil
      · exact List.nodup_nil

theorem get_domain_kpi_aliases_ne_empty (slug : String → String)
    (config : DomainConfig) (domain : String) :
    ∀ a ∈ get_domain_kpi_aliases slug config domain, a ≠ "" := by
  rw [get_domain_kpi_aliases]
  split
  · simp
  · split
    · exact mergeKpiBucket_ne_empty _ [] (by simp)
    · split
      · exact mergeKpiBucket_ne_empty _ [] (by simp)
      · simp

/-! ### Suggestion normalisation: `normalize_kpi_list` in `agents/helpers.py` -/

/-- A Python value as far as `normalize_kpi_list` inspects one: a string
or anything else. -/
inductive PyVal where
  | str (v : String)
  | other
deriving DecidableEq

/-- One item of the suggestion list handed to `normalize_kpi_list`: a
bare string, a dict (an ordered association list of fields), or any
other value. -/
inductive KpiItem where
  | str (v : String)
  | record (fields : List (String × PyVal))
  | other
deriving DecidableEq

/-- Python `item.get(key)` on a record's fields. -/
def pyGet (fields : List (String × PyVal)) (k : String) : Option PyVal :=
  (fields.find? (fun kv => kv.1 == k)).map (·.2)

/-- The candidate-field priority order of `normalize_kpi_list`. -/
def preferredKeys : List String := ["metric", "kpi", "name", "id"]

/-- The candidate alias extracted from one item: a bare string is
itself; for a record, the first string-valued field among
`preferredKeys`, else the first string-valued field in the record's own
order; anything else yields none. -/
def candidateOf : KpiItem → Option String
  | .str v => some v
  | .record fields =>
    match preferredKeys.findSome? (fun k =>
        match pyGet fields k with
        | some (.str v) => some v
        | _ => none) with
    | some v => some v
    | none =>
      fields.findSome? (fun kv =>
        match kv.2 with
        | .str v => some v
        | _ => none)
  | .other => none

/-- The accumulation loop of `normalize_kpi_list` (the `seen` set is
exactly membership in the accumulated list, since both grow together). -/
def nklFold (items : List KpiItem) (acc : List String) : List String :=
  items.foldl (fun acc item =>
    match candidateOf item with
    | some c => if c ≠ "" ∧ c ∉ acc then acc ++ [c] else acc
    | none => acc) acc

/-- `normalize_kpi_list` of `agents/helpers.py`.  `none` models Python
`None`; `if not kpis` also catches the empty list. -/
def normalize_kpi_list (kpis : Option (List KpiItem)) : List String :=
  match kpis with
  | none => []
  | some items => if items = [] then [] else nklFold items []

/-- First-occurrence-wins deduplication, used to state the amended
claim C9. -/
def dedupFold (l : List String) (acc : List String) : List String :=
  l.foldl (fun acc c => if c ∉ acc then acc ++ [c] else acc) acc

/-- The amended claim C9's description of `normalize_kpi_list`: extract
a candidate per item (first string field among the preferred keys, else
first string field of the record), drop missing and empty candidates,
deduplicate keeping the first occurrence. -/
def specNormalize (items : List KpiItem) : List String :=
  dedupFold ((items.filterMap candidateOf).filter (fun c => c ≠ "")) []

theorem nklFold_eq_dedupFold :
    ∀ (items : List KpiItem) (acc : List String),
      nklFold items acc =
        dedupFold ((items.filterMap candidateOf).filter (fun c => c ≠ "")) acc := by
  intro items
  induction items with
  | nil => intro acc; rfl
  | cons item rest ih =>
    intro acc
    simp only [nklFold, List.foldl_cons, List.filterMap_cons]
    cases hcand : candidateOf item with
    | none =>
      simp only [nklFold] at ih
      exact ih acc
    | some c =>
      by_cases hc : c = ""
      · subst hc
        simp only [ne_eq, not_true_eq_false, false_and, if_false]
        rw [List.filter_cons, if_neg (by simp)]
        simp only [nklFold] at ih
        exact ih acc
      · rw [List.filter_cons, if_pos (by simp [hc])]
        simp only [dedupFold, List.foldl_cons]
        simp only [nklFold] at ih
        by_cases hmem : c ∈ acc
        · rw [if_neg (by tauto), if_neg (by simpa using hmem)]
          exact ih acc
        · rw [if_pos ⟨hc, hmem⟩, if_pos (by simpa using hmem)]
          exact ih (acc ++ [c])

/-! ### Causal KPI risks: `get_kpi_level_risks` in `agents/helpers.py` -/

/-- One outgoing KPI-level edge: target alias and risk (a Python float,
modelled as `ℚ`). -/
structure KpiEdge where
  kpi : String
  risk : ℚ
deriving DecidableEq

/-- The precomputed `causal_kpi_graph`: source alias to outgoing
edges. -/
abbrev KpiGraph := List (String × List KpiEdge)

/-- The comparison used by `risks.sort(key=lambda x: x["risk"], reverse=True)`:
a stable sort placing higher risks first. -/
def riskGE (a b : KpiEdge) : Prop := b.risk ≤ a.risk

instance : DecidableRel riskGE := fun a b => inferInstanceAs (Decidable (b.risk ≤ a.risk))

/-- `get_kpi_level_risks` of `agents/helpers.py`: missing source gives
`[]`; else filter by `risk >= min_risk`, stable-sort descending by risk,
truncate to `max_results`, return target aliases. -/
def get_kpi_level_risks (g : KpiGraph) (name : String) (minRisk : ℚ)
    (maxResults : ℕ) : List String :=
  match lookupDict g name with
  | none => []
  | some edges =>
    ((((edges.filter (fun e => minRisk ≤ e.risk)).insertionSort riskGE).take
      maxResults).map KpiEdge.kpi)

theorem filter_orderedInsert_pos {p : KpiEdge → Bool} {a : KpiEdge}
    (hpa : p a = true) (hskip : ∀ b, ¬ riskGE a b → p b = false) :
    ∀ l : List KpiEdge,
      (l.orderedInsert riskGE a).filter p = a :: l.filter p := by
  intro l
  induction l with
  | nil => simp [List.orderedInsert, List.filter, hpa]
  | cons b l ih =>
    rw [List.orderedInsert]
    split
    · rw [List.filter_cons, if_pos hpa]
    · rename_i hr
      rw [List.filter_cons, if_neg (by simp [hskip b hr]), ih, List.filter_cons,
        if_neg (by simp [hskip b hr])]

theorem filter_orderedInsert_neg {p : KpiEdge → Bool} {a : KpiEdge}
    (hpa : p a = false) :
    ∀ l : List KpiEdge,
      (l.orderedInsert riskGE a).filter p = l.filter p := by
  intro l
  induction l with
  | nil => simp [List.orderedInsert, List.filter, hpa]
  | cons b l ih =>
    rw [List.orderedInsert]
    split
    · rw [List.filter_cons, if_neg (by simp [hpa])]
    · rw [List.filter_cons, ih, List.filter_cons]

theorem insertionSort_filter_risk :
    ∀ (l : List KpiEdge) (q : ℚ),
      (l.insertionSort riskGE).filter (fun e => e.risk == q) =
        l.filter (fun e => e.risk == q) := by
  intro l
  induction l with
  | nil => intro q; rfl
  | cons a l ih =>
    intro q
    rw [List.insertionSort]
    by_cases ha : a.risk = q
    · rw [filter_orderedInsert_pos (by simp [ha]) ?_, ih, List.filter_cons,
        if_pos (by simp [ha])]
      intro b hb
      have : a.risk < b.risk := lt_of_not_le hb
      simp only [beq_eq_false_iff_ne, ne_eq]
      intro hbq
      rw [ha] at this
      rw [hbq] at this
      exact lt_irrefl q this
    · rw [filter_orderedInsert_neg (by simp [ha]), ih, List.filter_cons,
        if_neg (by simp [ha])]

/-! ### KPI selection: `_resolve_kpi_selection` in `agents/pre_analyzer_agent.py` -/

/-- One entry of `CORE_TRIAGE_KPIS`: an alias and its external code. -/
structure TriageKpi where
  aliasName : String
  code : String
deriving DecidableEq

/-- The `CORE_TRIAGE_KPIS` table of `agents/pre_analyzer_agent.py`. -/
def CORE_TRIAGE_KPIS : List TriageKpi :=
  [⟨"pct_partos_logrados", "255d"⟩,
   ⟨"pct_fiebre_de_leche", "224d"⟩,
   ⟨"pct_retencion_de_placenta", "226d"⟩,
   ⟨"pct_metritis_primaria", "227d"⟩,
   ⟨"pct_cetosis", "228d"⟩,
   ⟨"pct_vacas_muertas_frescas_lt_30_del", "309d"⟩,
   ⟨"pct_desecho_vacas_lt_60_del_periodo", "311a"⟩,
   ⟨"pct_desecho_plus", "251f"⟩,
   ⟨"pico_de_prod_1a_lact", "79"⟩,
   ⟨"pico_de_prod_2a_lact", "79a"⟩,
   ⟨"pico_de_prod_3plus_lact", "79b"⟩,
   ⟨"ganancia_peso_diaria_nac_vs_destete", "43"⟩,
   ⟨"eficiencia_de_ganancia_de_peso", "44"⟩,
   ⟨"pct_becerras_jaulas_muertas_lt_1_meses", "298a"⟩,
   ⟨"pct_becerras_jaulas_muertas_lt_2_meses", "299a"⟩,
   ⟨"pct_becerras_muertas_2_13_meses", "301a"⟩,
   ⟨"pct_fertilidad_en_vaquillas", "45b"⟩,
   ⟨"edad_1er_servicio_lt_13", "53"⟩,
   ⟨"edad_1er_servicio_13_lt_14", "54"⟩,
   ⟨"edad_1er_servicio_gt_15", "56"⟩,
   ⟨"prod_a_305_del_1a_lact", "78"⟩,
   ⟨"prod_a_305_del_2a_lact", "78a"⟩,
   ⟨"prod_a_305_del_3plus_lact", "78b"⟩,
   ⟨"pct_total_abortos_vaquillas_m", "328h"⟩,
   ⟨"daily_rest_time_min_1a_lact", "259"⟩,
   ⟨"daily_rest_time_min_2a_lact", "266"⟩,
   ⟨"daily_rest_time_min_3plus_lact", "273"⟩,
   ⟨"pct_vacas_c_prob_digestivos", "291d"⟩,
   ⟨"pct_vacas_c_prob_locomotores", "293d"⟩,
   ⟨"pct_total_abortos_vacas_m", "329l"⟩,
   ⟨"deteccion_de_celos_ult2", "125"⟩,
   ⟨"taza_prenez_21_dias", "134"⟩,
   ⟨"dias_abiertos_mx", "24a"⟩]

/-- Python `str.isspace` characters, the set stripped by `str.strip()`
with no argument. -/
def isPyWs (c : Char) : Bool :=
  c ∈ [' ', '\t', '\n', '\x0b', '\x0c', '\r',
    '\x1c', '\x1d', '\x1e', '\x1f', '\x85', '\xa0',
    ' ', ' ', ' ', ' ', ' ', ' ', ' ',
    ' ', ' ', ' ', ' ', ' ',
    ' ', ' ', ' ', ' ', '　']

/-- Python `str.strip()`: whitespace removed from both ends. -/
def pyStripStr (s : String) : String :=
  String.mk (List.rdropWhile isPyWs (s.data.dropWhile isPyWs))

/-- `_slugify` applied to a `String` (same `norm` parameter as
`slugify`). -/
def slugStr (norm : List Char → List Char) (s : String) : String :=
  String.mk (slugify norm s.data)

/-- The `alias_to_code` dict built from `CORE_TRIAGE_KPIS` (keys are
unique, so ordered lookup equals dict lookup). -/
def aliasToCode (a : String) : Option String :=
  (CORE_TRIAGE_KPIS.find? (fun e => e.aliasName == a)).map (·.code)

/-- The `code_to_alias` dict built from `CORE_TRIAGE_KPIS`. -/
def codeToAlias (c : String) : Option String :=
  (CORE_TRIAGE_KPIS.find? (fun e => e.code == c)).map (·.aliasName)

/-- The loop state of `_resolve_kpi_selection`: accumulated codes,
accumulated alias set (insertion-ordered), and the unknown-token
flag. -/
structure ResolveState where
  codes : List String
  aliases : List String
  unknown : Bool
deriving DecidableEq

/-- Python `set.add` on the insertion-ordered alias set. -/
def aliasSetAdd (s : List String) (a : String) : List String :=
  if a ∈ s then s else s ++ [a]

/-- One iteration of the `for item in requested` loop of
`_resolve_kpi_selection`: skip falsy items, strip, then try exact alias
match, exact code match, slugified alias match, and finally pass the
stripped token through as a raw code while flagging the whitelist
unbounded. -/
def resolveStep (norm : List Char → List Char) (st : ResolveState)
    (item : String) : ResolveState :=
  if item = "" then st
  else
    let normalized := pyStripStr item
    match aliasToCode normalized with
    | some code =>
      { st with codes := st.codes ++ [code],
                aliases := aliasSetAdd st.aliases normalized }
    | none =>
      match codeToAlias normalized with
      | some al =>
        { st with codes := st.codes ++ [normalized],
                  aliases := aliasSetAdd st.aliases al }
      | none =>
        match aliasToCode (slugStr norm normalized) with
        | some code =>
          { st with codes := st.codes ++ [code],
                    aliases := aliasSetAdd st.aliases (slugStr norm normalized) }
        | none =>
          { st with codes := st.codes ++ [normalized], unknown := true }

/-- `_resolve_kpi_selection` of `agents/pre_analyzer_agent.py`.  The
result's second component is the alias whitelist: `none` is the
unbounded marker (Python `None`), `some` is a finite set.  `if not
requested` covers both `None` and the empty list. -/
def resolve_kpi_selection (norm : List Char → List Char)
    (requested : Option (List String)) : List String × Option (List String) :=
  match requested with
  | none =>
    (CORE_TRIAGE_KPIS.map (·.code), some (CORE_TRIAGE_KPIS.map (·.aliasName)))
  | some req =>
    if req = [] then
      (CORE_TRIAGE_KPIS.map (·.code), some (CORE_TRIAGE_KPIS.map (·.aliasName)))
    else
      let st := req.foldl (resolveStep norm) ⟨[], [], false⟩
      (st.codes, if st.unknown then none else some st.aliases)

theorem resolveStep_unknown_mono (norm : List Char → List Char)
    (st : ResolveState) (item : String) (h : st.unknown = true) :
    (resolveStep norm st item).unknown = true := by
  simp only [resolveStep]
  split
  · exact h
  · split
    · exact h
    · split
      · exact h
      · split
        · exact h
        · rfl

theorem resolveStep_codes_grow (norm : List Char → List Char)
    (st : ResolveState) (item : String) :
    st.codes.IsPrefix (resolveStep norm st item).codes := by
  simp only [resolveStep]
  split
  · exact List.prefix_refl _
  · split
    · exact ⟨_, rfl⟩
    · split
      · exact ⟨_, rfl⟩
      · split
        · exact ⟨_, rfl⟩
        · exact ⟨_, rfl⟩

theorem foldl_resolveStep_unknown_mono (norm : List Char → List Char) :
    ∀ (req : List String) (st : ResolveState), st.unknown = true →
      (req.foldl (resolveStep norm) st).unknown = true := by
  intro req
  induction req with
  | nil => intro st h; exact h
  | cons r rest ih =>
    intro st h
    rw [List.foldl_cons]
    exact ih _ (resolveStep_unknown_mono norm st r h)

theorem foldl_resolveStep_codes_grow (norm : List Char → List Char) :
    ∀ (req : List String) (st : ResolveState),
      st.codes.IsPrefix (req.foldl (resolveStep norm) st).codes := by
  intro req
  induction req with
  | nil => intro st; exact List.prefix_refl _
  | cons r rest ih =>
    intro st
    rw [List.foldl_cons]
    exact (resolveStep_codes_grow norm st r).trans (ih _)

theorem resolveStep_unmatched (norm : List Char → List Char)
    (st : ResolveState) {t : String} (ht : t ≠ "") (hstrip : pyStripStr t = t)
    (h1 : aliasToCode t = none) (h2 : codeToAlias t = none)
    (h3 : aliasToCode (slugStr norm t) = none) :
    resolveStep norm st t =
      { st with codes := st.codes ++ [t], unknown := true } := by
  rw [resolveStep, if_neg ht]
  simp only [hstrip, h1, h2, h3]

theorem foldl_resolveStep_unmatched (norm : List Char → List Char) {t : String}
    (ht : t ≠ "") (hstrip : pyStripStr t = t)
    (h1 : aliasToCode t = none) (h2 : codeToAlias t = none)
    (h3 : aliasToCode (slugStr norm t) = none) :
    ∀ (req : List String) (st : ResolveState), t ∈ req →
      (req.foldl (resolveStep norm) st).unknown = true ∧
      t ∈ (req.foldl (resolveStep norm) st).codes := by
  intro req
  induction req with
  | nil => intro st h; simp at h
  | cons r rest ih =>
    intro st hmem
    rw [List.foldl_cons]
    rcases List.mem_cons.mp hmem with heq | hmem'
    · subst heq
      rw [resolveStep_unmatched norm st ht hstrip h1 h2 h3]
      constructor
      · exact foldl_resolveStep_unknown_mono norm rest _ rfl
      · refine (foldl_resolveStep_codes_grow norm rest _).sublist.mem ?_
        simp
    · exact ih _ hmem'

/-! ### Triage batching: the summary-fetch loop of `run_pre_analysis` -/

/-- `math.ceil(n / 4)` for the fixed `batch_size = 4` of
`run_pre_analysis`. -/
def ceilDiv4 (n : ℕ) : ℕ := (n + 3) / 4

/-- The batch slices issued by the loop:
`kpi_codes[idx * batch_size : (idx + 1) * batch_size]` for
`idx in range(total_batches)`. -/
def kpiBatches {α : Type} (codes : List α) : List (List α) :=
  (List.range (ceilDiv4 codes.length)).map
    (fun idx => (codes.drop (idx * 4)).take 4)

/-- The same batches described head-first, for induction. -/
def chunks4 {α : Type} : List α → List (List α)
  | [] => []
  | a :: rest => (a :: rest).take 4 :: chunks4 ((a :: rest).drop 4)
termination_by l => l.length
decreasing_by
  simp only [List.length_drop, List.length_cons]
  omega

theorem kpiBatches_eq_chunks4 {α : Type} : ∀ codes : List α,
    kpiBatches codes = chunks4 codes
  | [] => by rw [chunks4]; simp [kpiBatches, ceilDiv4]
  | a :: rest => by
    rw [chunks4]
    have hceil : ceilDiv4 (a :: rest).length =
        ceilDiv4 ((a :: rest).length - 4) + 1 := by
      unfold ceilDiv4
      simp only [List.length_cons]
      omega
    rw [kpiBatches, hceil, List.range_succ_eq_map, List.map_cons, List.map_map]
    have h0 : ((a :: rest).drop (0 * 4)).take 4 = (a :: rest).take 4 := by simp
    rw [h0]
    have hrec : kpiBatches ((a :: rest).drop 4) = chunks4 ((a :: rest).drop 4) :=
      kpiBatches_eq_chunks4 ((a :: rest).drop 4)
    rw [kpiBatches, List.length_drop] at hrec
    rw [← hrec]
    congr 1
    refine List.map_congr_left ?_
    intro i _
    simp only [Function.comp_apply, List.drop_drop]
    congr 2
    omega
termination_by l => l.length
decreasing_by
  simp only [List.length_drop, List.length_cons]
  omega

theorem chunks4_flatten {α : Type} : ∀ codes : List α,
    (chunks4 codes).flatten = codes
  | [] => by rw [chunks4]; rfl
  | a :: rest => by
    rw [chunks4, List.flatten_cons, chunks4_flatten ((a :: rest).drop 4),
      List.take_append_drop]
termination_by l => l.length
decreasing_by
  simp only [List.length_drop, List.length_cons]
  omega

theorem chunks4_count {α : Type} : ∀ codes : List α,
    (chunks4 codes).length = ceilDiv4 codes.length
  | [] => by rw [chunks4]; simp [ceilDiv4]
  | a :: rest => by
    rw [chunks4, List.length_cons, chunks4_count ((a :: rest).drop 4),
      List.length_drop]
    unfold ceilDiv4
    simp only [List.length_cons]
    omega
termination_by l => l.length
decreasing_by
  simp only [List.length_drop, List.length_cons]
  omega

theorem chunks4_mem {α : Type} : ∀ (codes : List α) (c : List α),
    c ∈ chunks4 codes → c ≠ [] ∧ c.length ≤ 4
  | [], c, hmem => by
    rw [chunks4] at hmem
    simp at hmem
  | a :: rest, c, hmem => by
    rw [chunks4] at hmem
    rcases List.mem_cons.mp hmem with heq | hmem2
    · subst heq
      constructor
      · simp [List.take_eq_nil_iff]
      · simp [List.length_take]
    · exact chunks4_mem ((a :: rest).drop 4) c hmem2
termination_by l => l.length
decreasing_by
  simp only [List.length_drop, List.length_cons]
  omega

/-- The progress fractions emitted by the loop, one after each batch:
`0.02 + (0.20 * (idx + 1) / total_batches)`. -/
def triageProgress (n : ℕ) : List ℚ :=
  (List.range (ceilDiv4 n)).map
    (fun (idx : ℕ) => 2 / 100 + (20 / 100) * ((idx : ℚ) + 1) / (ceilDiv4 n : ℚ))

/-- The calls issued to the summarization collaborator, in order: one per
batch carrying its slice when the code list is non-empty, else a single
call with no `selected_kpis` parameter. -/
def triageCalls (codes : List String) : List (Option (List String)) :=
  if codes = [] then [none] else (kpiBatches codes).map some

theorem triageProgress_pairwise (n : ℕ) :
    (triageProgress n).Pairwise (· ≤ ·) := by
  refine List.Pairwise.map _ ?_ (List.pairwise_lt_range _)
  intro i j hij
  by_cases hT : (ceilDiv4 n : ℚ) = 0
  · simp [hT]
  · have hT' : (0 : ℚ) < (ceilDiv4 n : ℚ) := by
      have : (0 : ℚ) ≤ (ceilDiv4 n : ℚ) := by positivity
      exact lt_of_le_of_ne this (Ne.symm hT)
    have hle : ((i : ℚ) + 1) ≤ ((j : ℚ) + 1) := by
      have : (i : ℚ) ≤ (j : ℚ) := by exact_mod_cast le_of_lt hij
      linarith
    gcongr

theorem triageProgress_getLast (n : ℕ) (h : n ≠ 0) :
    (triageProgress n).getLast? = some (22 / 100) := by
  have h1 : 1 ≤ ceilDiv4 n := by
    unfold ceilDiv4
    omega
  have hT : ceilDiv4 n = (ceilDiv4 n - 1) + 1 := by omega
  rw [triageProgress, hT, List.range_succ, List.map_append, List.map_cons,
    List.map_nil, List.getLast?_concat]
  congr 1
  have hcast : ((ceilDiv4 n - 1 : ℕ) : ℚ) + 1 = (ceilDiv4 n : ℚ) := by
    push_cast [h1]
    ring
  have hne : ((ceilDiv4 n : ℕ) : ℚ) ≠ 0 := by
    exact_mod_cast Nat.one_le_iff_ne_zero.mp h1
  rw [← hT, hcast, mul_div_assoc, div_self hne]
  norm_num

/-! ### Summary fetching and whitelist filtering in `run_pre_analysis` -/

/-- One response of the summarization collaborator: the `summaries`
mapping plus the remaining metadata fields (opaque, type `μ`). -/
structure SummaryPayload (μ α : Type) where
  meta : μ
  summaries : List (String × α)

/-- Python `dict.update`: existing keys keep their position and take the
new value, new keys are appended in order. -/
def pyDictUpdate {α : Type} (d e : List (String × α)) : List (String × α) :=
  d.map (fun kv => (e.find? (fun x => x.1 == kv.1)).getD kv) ++
    e.filter (fun x => (d.find? (fun kv => kv.1 == x.1)).isNone)

/-- The `combined` accumulator of the batch loop: each batch's
`summaries` merged in index order. -/
def gatherSummaries {μ α : Type} (svc : Option (List String) → SummaryPayload μ α)
    (codes : List String) : List (String × α) :=
  (kpiBatches codes).foldl
    (fun acc chunk => pyDictUpdate acc (svc (some chunk)).summaries) []

/-- The summary mapping handed to the classification collaborator: fetch
(batched, or one unparameterized call for an empty code list), then
apply the alias whitelist — Python `if alias_whitelist:` filters only
when the whitelist is a finite NON-empty set. -/
def classifierSummaries {μ α : Type} (norm : List Char → List Char)
    (svc : Option (List String) → SummaryPayload μ α)
    (requested : Option (List String)) : List (String × α) :=
  let r := resolve_kpi_selection norm requested
  let sd := if r.1 ≠ [] then gatherSummaries svc r.1 else (svc none).summaries
  match r.2 with
  | some w => if w ≠ [] then sd.filter (fun kv => decide (kv.1 ∈ w)) else sd
  | none => sd

/-! ### Fan-out: `_gather_domain_agents` in `agents/agents_graph.py` -/

/-- The fixed order in which `_gather_domain_agents` tests the five
domains. -/
def canonicalDomains : List String :=
  ["Fertility", "Production", "Health", "Calf Raising", "Culling"]

/-- `_prepare_domain_kpis`: `build_domain_kpi_list(domain, suggested or [])`
(the truthiness fallback and `prioritized or []` inside
`build_domain_kpi_list` coincide). -/
def prepareDomainKpis (slug : String → String) (config : DomainConfig)
    (domain : String) (suggested : List String) : List String :=
  build_domain_kpi_list slug config domain (some suggested)

/-- The task list built by the five `if domain in domains_to_investigate`
blocks, in source order: one `(domain, resolved kpis)` pair per domain
key present, regardless of whether its suggestion list is empty. -/
def gatherTasks (slug : String → String) (config : DomainConfig)
    (dti : List (String × List String)) : List (String × List String) :=
  canonicalDomains.foldl (fun ts d =>
    match lookupDict dti d with
    | some sugg => ts ++ [(d, prepareDomainKpis slug config d sugg)]
    | none => ts) []

/-- What a domain-agent task returns as far as the join inspects it: a
dict carrying a `"domain"` field (a dict without one would raise a
`KeyError` in the comprehension, a path outside every claim), or a
non-dict value. -/
inductive AgentResult (ρ : Type) where
  | record (domain : String) (payload : ρ)
  | nonRecord (payload : ρ)
deriving DecidableEq

/-- Python dict insertion: an existing key keeps its position and takes
the new value, a new key is appended. -/
def pyDictInsert {β : Type} (m : List (String × β)) (k : String) (v : β) :
    List (String × β) :=
  if (m.find? (fun kv => kv.1 == k)).isSome then
    m.map (fun kv => if kv.1 == k then (k, v) else kv)
  else m ++ [(k, v)]

/-- The comprehension
`{item["domain"]: item for item in results if isinstance(item, dict)}`:
later records with the same `"domain"` value overwrite earlier ones,
non-dict results are skipped. -/
def buildResultMap {ρ : Type} (rs : List (AgentResult ρ)) :
    List (String × AgentResult ρ) :=
  rs.foldl (fun m r =>
    match r with
    | .record d _ => pyDictInsert m d r
    | .nonRecord _ => m) []

/-- `_gather_domain_agents`: schedule one task per domain key present,
run the agents (modelled as the function `agents`), and key the joined
mapping by each result's own `"domain"` field. -/
def gatherDomainAgents {ρ : Type} (slug : String → String)
    (config : DomainConfig) (agents : String → List String → AgentResult ρ)
    (dti : List (String × List String)) : List (String × AgentResult ρ) :=
  buildResultMap ((gatherTasks slug config dti).map (fun t => agents t.1 t.2))

theorem gatherTasks_domains (slug : String → String) (config : DomainConfig)
    (dti : List (String × List String)) :
    (gatherTasks slug config dti).map Prod.fst =
      canonicalDomains.filter (fun d => (lookupDict dti d).isSome) := by
  rw [gatherTasks]
  have haux : ∀ (ds : List String) (ts : List (String × List String)),
      (ds.foldl (fun ts d =>
        match lookupDict dti d with
        | some sugg => ts ++ [(d, prepareDomainKpis slug config d sugg)]
        | none => ts) ts).map Prod.fst =
        ts.map Prod.fst ++ ds.filter (fun d => (lookupDict dti d).isSome) := by
    intro ds
    induction ds with
    | nil => intro ts; simp
    | cons d ds ih =>
      intro ts
      rw [List.foldl_cons, List.filter_cons]
      cases hd : lookupDict dti d with
      | some sugg =>
        simp only [hd]
        rw [ih, if_pos (by simp [hd])]
        simp
      | none =>
        simp only [hd]
        rw [ih, if_neg (by simp [hd])]
  rw [haux]
  simp

theorem findMapUpdate {β : Type} (k : String) (v : β) :
    ∀ m : List (String × β), (m.find? (fun kv => kv.1 == k)).isSome = true →
      (m.map (fun kv => if kv.1 == k then (k, v) else kv)).find?
        (fun kv => kv.1 == k) = some (k, v) := by
  intro m
  induction m with
  | nil => intro h; simp at h
  | cons a m ih =>
    intro h
    rw [List.map_cons]
    by_cases ha : a.1 = k
    · rw [if_pos (by simpa using ha)]
      simp
    · have hfa : (a.1 == k) = false := by simpa using ha
      rw [if_neg (by simpa using ha)]
      simp only [List.find?_cons, hfa] at h ⊢
      exact ih h

theorem pyDictInsert_lookup {β : Type} (m : List (String × β)) (k : String)
    (v : β) : lookupDict (pyDictInsert m k v) k = some v := by
  rw [pyDictInsert]
  split
  · rename_i hfound
    rw [lookupDict, findMapUpdate k v m hfound]
    rfl
  · rename_i hnone
    rw [lookupDict, List.find?_append]
    have h1 : m.find? (fun kv => kv.1 == k) = none := by
      cases hf : m.find? (fun kv => kv.1 == k)
      · rfl
      · exact absurd (by rw [hf]; rfl) hnone
    rw [h1]
    simp

theorem pyDictInsert_length {β : Type} (m : List (String × β)) (k : String)
    (v : β) : (pyDictInsert m k v).length ≤ m.length + 1 := by
  rw [pyDictInsert]
  split
  · simp
  · simp

theorem pyDictInsert_entries {β : Type} (m : List (String × β)) (k : String)
    (v : β) (P : String × β → Prop) (hm : ∀ kv ∈ m, P kv) (hv : P (k, v)) :
    ∀ kv ∈ pyDictInsert m k v, P kv := by
  intro kv hkv
  rw [pyDictInsert] at hkv
  split at hkv
  · rcases List.mem_map.mp hkv with ⟨kv', hkv', heq⟩
    by_cases h : kv'.1 = k
    · rw [if_pos (by simpa using h)] at heq
      rw [← heq]
      exact hv
    · rw [if_neg (by simpa using h)] at heq
      rw [← heq]
      exact hm kv' hkv'
  · rcases List.mem_append.mp hkv with h | h
    · exact hm kv h
    · simp only [List.mem_singleton] at h
      rw [h]
      exact hv

/-- The invariant of the joined mapping: every entry is a record whose
`"domain"` field is the entry's key. -/
def entryConsistent {ρ : Type} (kv : String × AgentResult ρ) : Prop :=
  ∃ p, kv.2 = AgentResult.record kv.1 p

theorem buildResultMap_consistent {ρ : Type} (rs : List (AgentResult ρ)) :
    ∀ kv ∈ buildResultMap rs, entryConsistent kv := by
  rw [buildResultMap]
  have haux : ∀ (rs : List (AgentResult ρ))
      (m : List (String × AgentResult ρ)), (∀ kv ∈ m, entryConsistent kv) →
      ∀ kv ∈ rs.foldl (fun m r =>
        match r with
        | .record d _ => pyDictInsert m d r
        | .nonRecord _ => m) m, entryConsistent kv := by
    intro rs
    induction rs with
    | nil => intro m hm; exact hm
    | cons r rs ih =>
      intro m hm
      rw [List.foldl_cons]
      cases r with
      | record d p =>
        exact ih _ (pyDictInsert_entries m d _ entryConsistent hm ⟨p, rfl⟩)
      | nonRecord p => exact ih _ hm
  exact haux rs [] (by simp)

theorem buildResultMap_length {ρ : Type} (rs : List (AgentResult ρ)) :
    (buildResultMap rs).length ≤ rs.length := by
  rw [buildResultMap]
  have haux : ∀ (rs : List (AgentResult ρ))
      (m : List (String × AgentResult ρ)),
      (rs.foldl (fun m r =>
        match r with
        | .record d _ => pyDictInsert m d r
        | .nonRecord _ => m) m).length ≤ m.length + rs.length := by
    intro rs
    induction rs with
    | nil => intro m; simp
    | cons r rs ih =>
      intro m
      rw [List.foldl_cons]
      cases r with
      | record d p =>
        have h1 := ih (pyDictInsert m d (AgentResult.record d p))
        have h2 := pyDictInsert_length m d (AgentResult.record d p)
        simp only [List.length_cons]
        omega
      | nonRecord p =>
        have h1 := ih m
        simp only [List.length_cons]
        omega
  simpa using haux rs []

theorem buildResultMap_skips_nonrecord {ρ : Type} (rs : List (AgentResult ρ))
    (p : ρ) :
    buildResultMap (rs ++ [AgentResult.nonRecord p]) = buildResultMap rs := by
  rw [buildResultMap, buildResultMap, List.foldl_append]
  rfl

theorem buildResultMap_last_wins {ρ : Type} (rs : List (AgentResult ρ))
    (d : String) (p : ρ) :
    lookupDict (buildResultMap (rs ++ [AgentResult.record d p])) d =
      some (AgentResult.record d p) := by
  rw [buildResultMap, List.foldl_append]
  exact pyDictInsert_lookup _ d _

/-! ### The domain agents' no-data branches (`agents/fertility_agent.py`,
`production_agent.py`, `health_agent.py`, `calf_agent.py`,
`culling_agent.py`) -/

/-- The `recommendations` object of a no-data response. -/
structure Recommendations where
  immediate : List String
  short : List String
  medium : List String
  long : List String
deriving DecidableEq

/-- The record a domain agent returns when `_extract_rows` yields no
rows. -/
structure DomainReport where
  domain : String
  summary : String
  issues : List String
  recommendations : Recommendations
  kpis_to_plot : List String
deriving DecidableEq

/-- The fixed no-data summary string shared by all five agents. -/
def noDataSummary : String := "No KPI data available for analysis."

/-- `run_fertility_agent`'s early return for empty rows: note the
`"domain": "Production"` literal in the source, and `kpis_to_plot` set to
the normalized-and-merged list, not the request. -/
def fertilityNoData (slug : String → String) (config : DomainConfig)
    (kpis : List KpiItem) : DomainReport :=
  { domain := "Production", summary := noDataSummary, issues := [],
    recommendations := ⟨[], [], [], []⟩,
    kpis_to_plot :=
      build_domain_kpi_list slug config "Fertility"
        (some (normalize_kpi_list (some kpis))) }

/-- `run_production_agent`'s early return for empty rows. -/
def productionNoData (slug : String → String) (config : DomainConfig)
    (kpis : List KpiItem) : DomainReport :=
  { domain := "Production", summary := noDataSummary, issues := [],
    recommendations := ⟨[], [], [], []⟩,
    kpis_to_plot :=
      build_domain_kpi_list slug config "Production"
        (some (normalize_kpi_list (some kpis))) }

/-- `run_health_agent`'s early return for empty rows: the source also
writes `"domain": "Production"` here. -/
def healthNoData (slug : String → String) (config : DomainConfig)
    (kpis : List KpiItem) : DomainReport :=
  { domain := "Production", summary := noDataSummary, issues := [],
    recommendations := ⟨[], [], [], []⟩,
    kpis_to_plot :=
      build_domain_kpi_list slug config "Health"
        (some (normalize_kpi_list (some kpis))) }

/-- `run_calf_agent`'s early return for empty rows. -/
def calfNoData (slug : String → String) (config : DomainConfig)
    (kpis : List KpiItem) : DomainReport :=
  { domain := "Calf Raising", summary := noDataSummary, issues := [],
    recommendations := ⟨[], [], [], []⟩,
    kpis_to_plot :=
      build_domain_kpi_list slug config "Calf Raising"
        (some (normalize_kpi_list (some kpis))) }

/-- `run_culling_agent`'s early return for empty rows: it neither
normalizes nor merges its `kpis` argument, and the source writes
`"domain": "Production"` here too. -/
def cullingNoData (kpis : List String) : DomainReport :=
  { domain := "Production", summary := noDataSummary, issues := [],
    recommendations := ⟨[], [], [], []⟩, kpis_to_plot := kpis }

/-! ### Fixtures for the claim theorems -/

/-- A two-domain `domains_to_investigate` fixture with one empty list,
the pre-analysis output of the end-to-end scenario. -/
def exDti : List (String × List String) :=
  [("Fertility", ["pct_partos_logrados"]), ("Health", [])]

/-- A summarization collaborator returning one summary keyed `"x"`. -/
def svcX : Option (List String) → SummaryPayload Unit Unit :=
  fun _ => ⟨(), [("x", ())]⟩

/-- A summarization collaborator returning summaries for
`"pct_cetosis"` and a key outside the whitelist. -/
def svcW : Option (List String) → SummaryPayload Unit Unit :=
  fun _ => ⟨(), [("pct_cetosis", ()), ("other", ())]⟩

/-- A one-section domain configuration with default aliases
`["a", "c"]`. -/
def exConfig : DomainConfig :=
  [("Fertility", ⟨"Fertility", [⟨some "a", none, none⟩, ⟨some "c", none, none⟩]⟩)]

/-- The outgoing edges of the cluster-risk-ordering scenario. -/
def exEdges : List KpiEdge := [⟨"A", 9 / 10⟩, ⟨"B", 2 / 10⟩, ⟨"C", 5 / 100⟩]

/-- The KPI-level causal graph of the cluster-risk-ordering scenario. -/
def exRiskGraph : KpiGraph := [("X", exEdges)]

theorem gatherTasks_entries (slug : String → String) (config : DomainConfig)
    (dti : List (String × List String)) :
    ∀ t ∈ gatherTasks slug config dti, ∃ sugg,
      lookupDict dti t.1 = some sugg ∧
      t.2 = prepareDomainKpis slug config t.1 sugg := by
  rw [gatherTasks]
  have haux : ∀ (ds : List String) (ts : List (String × List String)),
      (∀ t ∈ ts, ∃ sugg, lookupDict dti t.1 = some sugg ∧
        t.2 = prepareDomainKpis slug config t.1 sugg) →
      ∀ t ∈ ds.foldl (fun ts d =>
        match lookupDict dti d with
        | some sugg => ts ++ [(d, prepareDomainKpis slug config d sugg)]
        | none => ts) ts, ∃ sugg, lookupDict dti t.1 = some sugg ∧
          t.2 = prepareDomainKpis slug config t.1 sugg := by
    intro ds
    induction ds with
    | nil => intro ts hts; exact hts
    | cons d ds ih =>
      intro ts hts
      rw [List.foldl_cons]
      cases hd : lookupDict dti d with
      | some sugg =>
        simp only [hd]
        refine ih _ ?_
        intro t ht
        rcases List.mem_append.mp ht with h | h
        · exact hts t h
        · simp only [List.mem_singleton] at h
          exact ⟨sugg, by rw [h]; exact hd, by rw [h]⟩
      | none =>
        simp only [hd]
        exact ih _ hts
  exact haux canonicalDomains [] (by simp)

/-! ### The claims -/

/-- Claim C1, as stated, is false: `_gather_domain_agents` schedules a
task for every domain KEY present in `domains_to_investigate`, with no
non-emptiness check.  On the claimed input
`{"Fertility": ["pct_partos_logrados"], "Health": []}` two tasks are
scheduled, Health included, and (with each agent returning a record
naming its own domain) the joined mapping has two entries. -/
theorem claim_C1_counterexample :
    (gatherTasks (fun s => s) [] exDti).map Prod.fst =
      ["Fertility", "Health"] ∧
    (gatherDomainAgents (fun s => s) []
      (fun d k => AgentResult.record d k) exDti).map Prod.fst =
      ["Fertility", "Health"] := by
  constructor
  · rfl
  · rfl

/-- Claim C1 (amended): in the FAN_OUT phase one task is scheduled for
every canonical domain whose key is present in
`domains_to_investigate` — whether or not its KPI list is empty — in the
fixed canonical order, each carrying the merged KPI scope of its own
domain; a domain whose key is absent is skipped entirely. -/
theorem claim_C1 (slug : String → String) (config : DomainConfig)
    (dti : List (String × List String)) :
    (gatherTasks slug config dti).map Prod.fst =
      canonicalDomains.filter (fun d => (lookupDict dti d).isSome) ∧
    ∀ t ∈ gatherTasks slug config dti, ∃ sugg,
      lookupDict dti t.1 = some sugg ∧
      t.2 = prepareDomainKpis slug config t.1 sugg :=
  ⟨gatherTasks_domains slug config dti, gatherTasks_entries slug config dti⟩

/-- Claim C2: the code contradicts it.  The no-data early returns of the
fertility, health and culling agents carry `"domain": "Production"`
instead of their own domain names (a copy-paste slip: each agent's LLM
prompt names its own domain), and every agent but culling sets
`kpis_to_plot` to the normalized-and-merged list rather than the request
unchanged.  This theorem evaluates the five no-data branches. -/
theorem claim_C2_bug :
    (fertilityNoData (fun s => s) [] []).domain = "Production" ∧
    (healthNoData (fun s => s) [] []).domain = "Production" ∧
    (cullingNoData ["pct_desecho_plus"]).domain = "Production" ∧
    (productionNoData (fun s => s) [] []).domain = "Production" ∧
    (calfNoData (fun s => s) [] []).domain = "Calf Raising" ∧
    (cullingNoData ["pct_desecho_plus"]).kpis_to_plot = ["pct_desecho_plus"] ∧
    ("Production" : String) ≠ "Fertility" ∧
    ("Production" : String) ≠ "Health" ∧
    ("Production" : String) ≠ "Culling" := by
  refine ⟨rfl, rfl, rfl, rfl, rfl, rfl, ?_, ?_, ?_⟩ <;> decide

/-- Claim C3: for a non-empty code list of length n the triage fetch
issues ceil(n/4) calls over consecutive disjoint chunks (the last
possibly shorter), and exactly one unparameterized call when n = 0; the
emitted progress fractions are non-decreasing and end at the window's
upper bound 0.02 + 0.20 = 0.22. -/
theorem claim_C3 (codes : List String) :
    (codes = [] → triageCalls codes = [Option.none]) ∧
    (codes ≠ [] →
      triageCalls codes = (kpiBatches codes).map some ∧
      (kpiBatches codes).length = (codes.length + 3) / 4 ∧
      (kpiBatches codes).flatten = codes ∧
      (∀ c ∈ kpiBatches codes, c ≠ [] ∧ c.length ≤ 4) ∧
      (triageProgress codes.length).Pairwise (· ≤ ·) ∧
      (triageProgress codes.length).getLast? = some (22 / 100)) := by
  constructor
  · intro h
    rw [triageCalls, if_pos h]
  · intro h
    refine ⟨by rw [triageCalls, if_neg h], ?_, ?_, ?_,
      triageProgress_pairwise codes.length, ?_⟩
    · rw [kpiBatches_eq_chunks4, chunks4_count]
      rfl
    · rw [kpiBatches_eq_chunks4, chunks4_flatten]
    · intro c hc
      rw [kpiBatches_eq_chunks4] at hc
      exact chunks4_mem codes c hc
    · refine triageProgress_getLast codes.length ?_
      intro h0
      exact h (List.length_eq_zero.mp h0)

theorem claim_C3_witness :
    triageCalls ["a", "b", "c", "d", "e"] =
      [some ["a", "b", "c", "d"], some ["e"]] ∧
    (triageProgress 5).getLast? = some (22 / 100) := by
  obtain ⟨h0, h1⟩ := claim_C3 ["a", "b", "c", "d", "e"]
  obtain ⟨ha, hb, hc, hd, he, hf⟩ := h1 (by decide)
  exact ⟨by rw [ha]; rfl, hf⟩

/-- Claim C4, as stated, is false for the empty whitelist: Python
`if alias_whitelist:` is falsy on an empty set, so no filtering happens.
`resolve_kpi_selection` returns the finite empty whitelist for a request
of falsy tokens, and a summary key outside it survives to the
classifier. -/
theorem claim_C4_counterexample :
    (resolve_kpi_selection (fun l => l) (some [""])).2 = some [] ∧
    classifierSummaries (fun l => l) svcX (some [""]) = [("x", ())] ∧
    ("x" : String) ∉ ([] : List String) := by
  refine ⟨rfl, rfl, by simp⟩

/-- Claim C4 (amended): whenever the KPI selection resolves to a finite
NON-empty alias whitelist, every key of the merged summary mapping
handed to the classifier is a member of that whitelist; the empty finite
whitelist behaves like the unbounded marker (no filtering). -/
theorem claim_C4 (μ α : Type) (norm : List Char → List Char)
    (svc : Option (List String) → SummaryPayload μ α)
    (requested : Option (List String)) (w : List String)
    (hw : (resolve_kpi_selection norm requested).2 = some w) (hne : w ≠ []) :
    ∀ kv ∈ classifierSummaries norm svc requested, kv.1 ∈ w := by
  intro kv hkv
  simp only [classifierSummaries, hw] at hkv
  rw [if_pos hne] at hkv
  have := List.of_mem_filter hkv
  exact of_decide_eq_true this

theorem claim_C4_witness :
    (("pct_cetosis", ()) : String × Unit).1 ∈ (["pct_cetosis"] : List String) :=
  claim_C4 Unit Unit (fun l => l) svcW (some ["pct_cetosis"]) ["pct_cetosis"]
    rfl (by decide) ("pct_cetosis", ()) (by decide)

/-- Claim C5: an empty (or None) request resolves to all known codes
with the full known-alias whitelist; and any non-empty, whitespace-free
token matching no alias, no code and no slugified alias is passed
through verbatim into the code list and makes the whitelist unbounded
(`none`). -/
theorem claim_C5 (norm : List Char → List Char) :
    (resolve_kpi_selection norm none =
      (CORE_TRIAGE_KPIS.map (·.code),
        some (CORE_TRIAGE_KPIS.map (·.aliasName))) ∧
     resolve_kpi_selection norm (some []) =
      (CORE_TRIAGE_KPIS.map (·.code),
        some (CORE_TRIAGE_KPIS.map (·.aliasName)))) ∧
    ∀ (req : List String) (t : String), t ∈ req → t ≠ "" →
      pyStripStr t = t → aliasToCode t = none → codeToAlias t = none →
      aliasToCode (slugStr norm t) = none →
      (resolve_kpi_selection norm (some req)).2 = none ∧
      t ∈ (resolve_kpi_selection norm (some req)).1 := by
  refine ⟨⟨rfl, rfl⟩, ?_⟩
  intro req t hmem ht hstrip h1 h2 h3
  have hreq : req ≠ [] := List.ne_nil_of_mem hmem
  obtain ⟨hu, hc⟩ :=
    foldl_resolveStep_unmatched norm ht hstrip h1 h2 h3 req ⟨[], [], false⟩ hmem
  rw [resolve_kpi_selection]
  rw [if_neg hreq]
  constructor
  · simp only [hu]
    rfl
  · exact hc

theorem claim_C5_witness :
    (resolve_kpi_selection (fun l => l) (some ["zzz"])).2 = none ∧
    "zzz" ∈ (resolve_kpi_selection (fun l => l) (some ["zzz"])).1 :=
  (claim_C5 (fun l => l)).2 ["zzz"] "zzz" (by decide) (by decide) rfl rfl rfl
    rfl

/-- Claim C6: for a duplicate-free list p of genuine (non-empty) aliases,
`build_domain_kpi_list` returns p in its original order followed by the
domain's default aliases not already in p, with no duplicates anywhere. -/
theorem claim_C6 (slug : String → String) (config : DomainConfig)
    (domain : String) (p : List String) (hnd : p.Nodup)
    (hne : ∀ a ∈ p, a ≠ "") :
    build_domain_kpi_list slug config domain (some p) =
      p ++ (get_domain_kpi_aliases slug config domain).filter
        (fun a => decide (a ∉ p)) ∧
    (build_domain_kpi_list slug config domain (some p)).Nodup := by
  have hdnd := get_domain_kpi_aliases_nodup slug config domain
  have hdne := get_domain_kpi_aliases_ne_empty slug config domain
  have h1 : mergeKpiBucket [] p = p := by
    have := mergeKpiBucket_of_fresh p [] hnd hne (by simp)
    simpa using this
  rw [build_domain_kpi_list]
  simp only [Option.getD_some]
  rw [h1]
  exact ⟨mergeKpiBucket_filter _ p hdnd hdne, mergeKpiBucket_nodup _ p hnd⟩

theorem claim_C6_witness :
    build_domain_kpi_list (fun s => s) exConfig "Fertility" (some ["a", "b"]) =
      ["a", "b"] ++ (get_domain_kpi_aliases (fun s => s) exConfig
        "Fertility").filter (fun a => decide (a ∉ ["a", "b"])) ∧
    (build_domain_kpi_list (fun s => s) exConfig "Fertility"
      (some ["a", "b"])).Nodup :=
  claim_C6 (fun s => s) exConfig "Fertility" ["a", "b"] (by decide) (by decide)

/-- Claim C7: `_slugify` is idempotent.  The Unicode-dependent prefix
(NFKD normalisation, combining-mark removal, lowercasing) is the
parameter `norm`; the hypothesis — `norm` leaves slugify outputs
unchanged — is what the Unicode character database guarantees for the
real pipeline, and the replacement chain, underscore collapsing and
stripping are proved idempotent concretely. -/
theorem claim_C7 (norm : List Char → List Char)
    (hnorm : ∀ s, norm (slugify norm s) = slugify norm s) (s : List Char) :
    slugify norm (slugify norm s) = slugify norm s := by
  show slugifyCore (norm (slugify norm s)) = slugify norm s
  rw [hnorm s]
  show slugifyCore (slugifyCore (norm s)) = slugifyCore (norm s)
  exact slugifyCore_idem (norm s)

theorem claim_C7_witness :
    slugify (fun l => l) (slugify (fun l => l) ("Hello% (World)+-R.").data) =
      slugify (fun l => l) ("Hello% (World)+-R.").data :=
  claim_C7 (fun l => l) (fun _ => rfl) ("Hello% (World)+-R.").data

/-- Claim C8: `get_kpi_level_risks` returns the target aliases of the
outgoing edges of `kpiAlias` with risk at least `minRisk`, in descending
risk order under a stable sort (equal risks keep input order, stated via
filters), truncated to `maxResults`; a source with no outgoing edges
yields `[]`. -/
theorem claim_C8 (g : KpiGraph) (name : String) (minRisk : ℚ)
    (maxResults : ℕ) :
    (lookupDict g name = none →
      get_kpi_level_risks g name minRisk maxResults = []) ∧
    ∀ edges, lookupDict g name = some edges →
      ∃ sorted : List KpiEdge,
        get_kpi_level_risks g name minRisk maxResults =
          (sorted.take maxResults).map KpiEdge.kpi ∧
        sorted.Perm (edges.filter (fun e => decide (minRisk ≤ e.risk))) ∧
        sorted.Pairwise riskGE ∧
        (∀ q : ℚ, sorted.filter (fun e => e.risk == q) =
          (edges.filter (fun e => decide (minRisk ≤ e.risk))).filter
            (fun e => e.risk == q)) ∧
        (∀ e ∈ sorted, minRisk ≤ e.risk) ∧
        (get_kpi_level_risks g name minRisk maxResults).length ≤ maxResults := by
  constructor
  · intro h
    rw [get_kpi_level_risks, h]
  · intro edges h
    have hval : get_kpi_level_risks g name minRisk maxResults =
        ((((edges.filter (fun e => decide (minRisk ≤ e.risk))).insertionSort
          riskGE).take maxResults).map KpiEdge.kpi) := by
      rw [get_kpi_level_risks, h]
    haveI : IsTotal KpiEdge riskGE := ⟨fun a b => le_total b.risk a.risk⟩
    haveI : IsTrans KpiEdge riskGE := ⟨fun a b c hab hbc => le_trans hbc hab⟩
    refine ⟨(edges.filter (fun e => decide (minRisk ≤ e.risk))).insertionSort
      riskGE, ?_, ?_, ?_, ?_, ?_, ?_⟩
    · exact hval
    · exact List.perm_insertionSort riskGE _
    · exact List.sorted_insertionSort riskGE _
    · exact insertionSort_filter_risk _
    · intro e he
      have hmem := (List.perm_insertionSort riskGE _).mem_iff.mp he
      exact of_decide_eq_true (List.mem_filter.mp hmem).2
    · rw [hval]
      simp [List.length_take]

theorem claim_C8_witness :
    get_kpi_level_risks exRiskGraph "X" (1 / 10) 10 = ["A", "B"] ∧
    (get_kpi_level_risks exRiskGraph "X" (1 / 10) 10).length ≤ 10 := by
  obtain ⟨h0, h1⟩ := claim_C8 exRiskGraph "X" (1 / 10) 10
  obtain ⟨sorted, heq, hperm, hpair, hstab, hmem, hlen⟩ := h1 exEdges rfl
  refine ⟨?_, hlen⟩
  norm_num [get_kpi_level_risks, lookupDict, exRiskGraph, exEdges,
    List.find?, List.filter, List.insertionSort, List.orderedInsert, riskGE]

/-- Claim C9, as stated, is false: a record with no string-valued field
among `metric, kpi, name, id` is NOT dropped silently — the code falls
back to the record's first string-valued field in its own order.
`[{"urgency": "High"}]` normalizes to `["High"]`, not `[]`. -/
theorem claim_C9_counterexample :
    normalize_kpi_list (some [KpiItem.record [("urgency", PyVal.str "High")]]) =
      ["High"] ∧
    (["High"] : List String) ≠ [] := by
  exact ⟨rfl, by simp⟩

/-- Claim C9 (amended): `normalize_kpi_list` maps a bare string to
itself and a record to its first string-valued field among
`metric, kpi, name, id`, falling back to the record's first
string-valued field in its own order; items with no string candidate and
empty-string candidates are dropped; duplicates are dropped keeping the
first occurrence; `None` and empty input give `[]`. -/
theorem claim_C9 :
    normalize_kpi_list none = [] ∧
    normalize_kpi_list (some []) = [] ∧
    ∀ items : List KpiItem,
      normalize_kpi_list (some items) = specNormalize items := by
  refine ⟨rfl, rfl, ?_⟩
  intro items
  by_cases h : items = []
  · subst h
    rfl
  · rw [normalize_kpi_list]
    rw [if_neg h]
    exact nklFold_eq_dedupFold items []

/-- Claim C10: after the FAN_OUT join, the result mapping is keyed by
the `"domain"` field inside each returned record (every entry's value is
a record naming the entry's key), non-record results are silently
omitted, a later record with a repeated `"domain"` overwrites the
earlier one, and the mapping never has more entries than tasks
scheduled. -/
theorem claim_C10 (ρ : Type) (slug : String → String) (config : DomainConfig)
    (agents : String → List String → AgentResult ρ)
    (dti : List (String × List String)) :
    (∀ kv ∈ gatherDomainAgents slug config agents dti,
      ∃ p, kv.2 = AgentResult.record kv.1 p) ∧
    (gatherDomainAgents slug config agents dti).length ≤
      (gatherTasks slug config dti).length ∧
    (∀ (rs : List (AgentResult ρ)) (p : ρ),
      buildResultMap (rs ++ [AgentResult.nonRecord p]) = buildResultMap rs) ∧
    (∀ (rs : List (AgentResult ρ)) (d : String) (p : ρ),
      lookupDict (buildResultMap (rs ++ [AgentResult.record d p])) d =
        some (AgentResult.record d p)) := by
  refine ⟨fun kv hkv => buildResultMap_consistent _ kv hkv, ?_,
    buildResultMap_skips_nonrecord, buildResultMap_last_wins⟩
  rw [gatherDomainAgents]
  exact (buildResultMap_length _).trans (by simp)

theorem claim_C10_witness :
    lookupDict (buildResultMap
      ([AgentResult.record "Production" "Fertility"] ++
        [AgentResult.record "Production" "Culling"])) "Production" =
      some (AgentResult.record "Production" "Culling") :=
  (claim_C10 String (fun s => s) [] (fun d _ => AgentResult.record d d)
    []).2.2.2 [AgentResult.record "Production" "Fertility"] "Production"
    "Culling"

end FarmKpi
